import Mathlib

/-!
Verification of the cafs content-addressed store.

A shallow embedding of the cafs repository (github.com/aweris/cafs): the
CAS store and its blobStore from the store file, and the prefix-packing
sync layer in internal/remote/chunk.go.

Go strings and byte slices are modelled as lists of byte values; Go's
sort.Strings byte-wise lexicographic order coincides with the
lexicographic linear order on such lists.  Go maps are modelled as
association lists read as finite maps (Go's random iteration order is
replaced by a canonical list order; everything that depends on a map is
compared as a finite map via lookupA).  SHA-256 (crypto/sha256) and zstd
compression are external library primitives, not repository code, so they
enter the model as explicit function parameters (sha256hex, compress); no
theorem depends on their values.  The encoding/json marshalling of the
index is likewise abstracted as explicit marshal / unmarshal parameters.
-/

namespace CafsProof

/-- Model of a Go string / byte slice: a list of byte values. -/
abbrev Str := List Nat

/-- Bytes of the string constant of the store named digestPre fix,
that is the seven characters of sha256 followed by a colon. -/
def digestPrefixBytes : Str := [115, 104, 97, 50, 53, 54, 58]

/-- Bytes of the store constant prefixHashKeyPre fix, the eight
characters of an underscore, the word followed by a slash. -/
def prefixHashKeyBytes : Str := [95, 112, 114, 101, 102, 105, 120, 47]

/-- Model of strings.CutPrefix p s: the remainder when p prefixes s. -/
def cutPrefixStr (p s : Str) : Option Str :=
  if p.isPrefixOf s then some (s.drop p.length) else none

/-- Model of strings.TrimPrefix p s. -/
def trimPrefixStr (p s : Str) : Str :=
  if p.isPrefixOf s then s.drop p.length else s

/-- Model of strings.TrimRight s over the NUL byte. -/
def trimRightNul (s : Str) : Str :=
  (s.reverse.dropWhile (· == 0)).reverse

/-- ASCII decimal digits of a natural number (the percent-d verb). -/
def natDecimal (n : Nat) : Str := (Nat.toDigits 10 n).map Char.toNat

/-- ASCII decimal of an int64 (minus sign for negatives). -/
def intDecimal (i : Int) : Str :=
  if i < 0 then 45 :: natDecimal i.natAbs else natDecimal i.natAbs

/-- Model of binary.BigEndian.PutUint64: 8 bytes, big-endian. -/
def be64 (n : Nat) : Str :=
  [n / 2 ^ 56 % 256, n / 2 ^ 48 % 256, n / 2 ^ 40 % 256, n / 2 ^ 32 % 256,
   n / 2 ^ 24 % 256, n / 2 ^ 16 % 256, n / 2 ^ 8 % 256, n % 256]

/-- Model of sort.Strings: sort byte strings in ascending byte order. -/
def sortStr (l : List Str) : List Str := l.insertionSort (· ≤ ·)

/-- Association-list lookup, modelling Go map indexing. -/
def lookupA {α : Type} : List (Str × α) → Str → Option α
  | [], _ => none
  | kv :: rest, k => if kv.1 = k then some kv.2 else lookupA rest k

/-- Association-list update, modelling Go map assignment. -/
def storeA {α : Type} : List (Str × α) → Str → α → List (Str × α)
  | [], k, v => [(k, v)]
  | kv :: rest, k, v => if kv.1 = k then (k, v) :: rest else kv :: storeA rest k v

/-- Key set of an association list. -/
def keysA {α : Type} (l : List (Str × α)) : List Str := l.map Prod.fst

/-- Number of entries of an association list carrying a given key. -/
def countKey {α : Type} (l : List (Str × α)) (k : Str) : Nat :=
  l.countP (fun f => f.1 == k)

/-! ## Data model: Info and PrefixInfo -/

/-- Index value Info with fields Digest, Size and Meta.  The field of
type any is modelled as an optional opaque byte string; no claim inspects
its structure. -/
structure Info where
  digest : Str
  size : Int
  meta : Option Str
deriving DecidableEq

/-- Model of remote.PrefixInfo with fields Hash and Layer. -/
structure PrefixInfo where
  hash : Str
  layer : Str
deriving DecidableEq

/-- Errors surfaced by the modelled store operations. -/
inductive CafsErr
  | reservedKey
  | notFound
  | noRemote
deriving DecidableEq

/-! ## blobStore -/

/-- State of blobStore: the files below the blobs/sha256 directory, keyed
by path relative to that directory, and the pending set of digests
written since the last push. -/
structure BlobStore where
  files : List (Str × Str)
  pending : List Str
deriving DecidableEq

/-- Model of blobStore.blobPath, relative to the store directory: trim
the digest tag; short hashes are placed flat, otherwise two leading hex
characters name the subdirectory. -/
def blobPath (digest : Str) : Str :=
  let hash := trimPrefixStr digestPrefixBytes digest
  if hash.length < 4 then hash else hash.take 2 ++ [47] ++ hash.drop 2

/-- Model of os.Stat on a blob path: does the file exist? -/
def statExists (b : BlobStore) (path : Str) : Bool := (lookupA b.files path).isSome

/-- Model of blobStore.putWithDigest: stat first; if the file exists
return isNew false with no write, else write the file. -/
def putWithDigest (b : BlobStore) (digest data : Str) : Bool × BlobStore :=
  let path := blobPath digest
  if statExists b path then (false, b)
  else (true, { b with files := storeA b.files path data })

/-- Model of sync.Map.Store on the pending set (set semantics). -/
def pendingStore (pending : List Str) (d : Str) : List Str :=
  if d ∈ pending then pending else pending ++ [d]

/-- Model of blobStore.Put: digest the data, write via putWithDigest, and
track newly created digests in the pending set.  The parameter sha256hex
abstracts the lowercase hex encoding of the SHA-256 of the data. -/
def blobPut (sha256hex : Str → Str) (b : BlobStore) (data : Str) : Str × BlobStore :=
  let digest := digestPrefixBytes ++ sha256hex data
  let r := putWithDigest b digest data
  if r.1 then (digest, { r.2 with pending := pendingStore r.2.pending digest })
  else (digest, r.2)

/-- Model of blobStore.Get: read the blob file. -/
def blobGet (b : BlobStore) (digest : Str) : Option Str := lookupA b.files (blobPath digest)

/-! ## CAS store state and operations -/

/-- In-memory state of a CAS store: blob store, the entries map (a
sync.Map, modelled as an association list), and the dirty flag. -/
structure CASState where
  blobs : BlobStore
  entries : List (Str × Info)
  dirty : Bool
deriving DecidableEq

/-- Model of CAS.Put: keys beginning with an underscore are rejected with
the reserved-key error before anything is written; otherwise the blob is
stored, the functional options are applied to the Info, and the entry is
recorded.  The Go method mutates the receiver and returns an error; the
model returns the error alongside the (un)changed state. -/
def casPut (sha256hex : Str → Str) (s : CASState) (key data : Str)
    (opts : List (Info → Info)) : Option CafsErr × CASState :=
  if ([95] : Str).isPrefixOf key then (some .reservedKey, s)
  else
    let r := blobPut sha256hex s.blobs data
    let info := opts.foldl (fun i o => o i)
      { digest := r.1, size := (data.length : Int), meta := none }
    (none, { s with blobs := r.2, entries := storeA s.entries key info, dirty := true })

/-- Model of CAS.List: iterate entries, skipping the internal records,
yielding the key without its leading search string next to the info. -/
def casList (s : CASState) (pre : Str) : List (Str × Info) :=
  s.entries.filterMap fun kv =>
    if prefixHashKeyBytes.isPrefixOf kv.1 then none
    else match cutPrefixStr pre kv.1 with
      | some rel => some (rel, kv.2)
      | none => none

/-- Projection of an entry to what participates in merkle hashing: key,
digest and size (never the metadata). -/
def hashProj (kv : Str × Info) : Str × Str × Int := (kv.1, kv.2.digest, kv.2.size)

/-- One item of CAS.Hash: the formatted string of the relative key, a NUL
byte, the digest, a NUL byte and the decimal size, for a non-internal key
carrying the search string; none otherwise. -/
def hashItemP (pre : Str) (t : Str × Str × Int) : Option Str :=
  if prefixHashKeyBytes.isPrefixOf t.1 then none
  else match cutPrefixStr pre t.1 with
    | some rel => some (rel ++ [0] ++ t.2.1 ++ [0] ++ intDecimal t.2.2)
    | none => none

/-- Model of CAS.Hash: collect the items, return the empty digest if none,
else sort, join with single newlines and hash. -/
def casHash (sha256hex : Str → Str) (entries : List (Str × Info)) (pre : Str) : Str :=
  let items := (entries.map hashProj).filterMap (hashItemP pre)
  if items.isEmpty then []
  else digestPrefixBytes ++ sha256hex (List.intercalate [10] (sortStr items))

/-- Model of CAS.Root, defined as the hash of the empty key. -/
def casRoot (sha256hex : Str → Str) (entries : List (Str × Info)) : Str :=
  casHash sha256hex entries []

/-- Reference merkle hash, written from the words of spec section 4.3 and
claim C4: collect each non-internal key k (one not starting with the
internal record marker) that starts with p as the byte string of the key
past p, a NUL byte, the digest, a NUL byte and the decimal size; if the
collection is empty return the empty digest; else sort the byte strings
in byte order, join with single newline separators, and return the digest
tag followed by the hex SHA-256 of the joined bytes. -/
def specHashRef (sha256hex : Str → Str) (entries : List (Str × Info)) (pre : Str) : Str :=
  let collected := (entries.filter fun kv =>
      !(prefixHashKeyBytes.isPrefixOf kv.1) && pre.isPrefixOf kv.1).map
    fun kv => kv.1.drop pre.length ++ [0] ++ kv.2.digest ++ [0] ++ intDecimal kv.2.size
  if collected.isEmpty then []
  else digestPrefixBytes ++ sha256hex (List.intercalate [10] (sortStr collected))

/-! ## Layer codec: PackLayer and UnpackLayer of chunk.go -/

/-- Fixed 71-byte NUL-padded digest field of a record (a copy into a
71-byte buffer, then zero-fill from the digest length onward). -/
def padDigest (d : Str) : Str := d.take 71 ++ List.replicate (71 - d.length) 0

/-- One record of the layer format: padded digest, 8-byte big-endian
length, then the raw data. -/
def packRecord (d data : Str) : Str := padDigest d ++ be64 data.length ++ data

/-- Model of PackLayer: records for the digests in ascending byte order. -/
def packLayer (blobs : List (Str × Str)) : Str :=
  ((sortStr (blobs.map Prod.fst)).map fun d => packRecord d ((lookupA blobs d).getD [])).flatten

/-- Read loop of UnpackLayer over a bytes.Reader.  Reader.Read fills at
most the remaining bytes without error, and reports end of file exactly
when nothing remains — including for a zero-length destination buffer,
which is why a record whose data is empty and final fails.  A remainder
shorter than 79 bytes dies in binary.Read (end of file, plain or
unexpected). -/
def unpackLoop (rem : Str) (acc : List (Str × Str)) : Option (List (Str × Str)) :=
  if rem = [] then some acc
  else if rem.length < 79 then none
  else
    let digest := trimRightNul (rem.take 71)
    let len := ((rem.drop 71).take 8).foldl (fun a b => a * 256 + b) 0
    let rest := (rem.drop 71).drop 8
    if rest.isEmpty then none
    else
      let blobData := rest.take len ++ List.replicate (len - rest.length) 0
      unpackLoop (rest.drop len) (storeA acc digest blobData)
termination_by rem.length
decreasing_by simp_all [List.length_drop]; omega

/-- Model of UnpackLayer; none models a returned error. -/
def unpackLayer (data : Str) : Option (List (Str × Str)) := unpackLoop data []

/-! ## Prefix sharder and layer plan of chunk.go -/

/-- Soft maximum layer size of ten mebibytes. -/
def layerSoftMax : Int := 10 * 1024 * 1024

/-- Minimum layer size of two mebibytes. -/
def layerMinSize : Int := 2 * 1024 * 1024

/-- Model of the shard-name extraction of chunk.go: first two hex
characters after the digest tag, with the exact fallthrough of the source
for malformed digests. -/
def extractPrefixStr (digest : Str) : Str :=
  match cutPrefixStr digestPrefixBytes digest with
  | some rest =>
    if 2 ≤ rest.length then rest.take 2
    else if 2 ≤ digest.length then digest.take 2 else [48, 48]
  | none => if 2 ≤ digest.length then digest.take 2 else [48, 48]

/-- Model of PrefixHash: an empty shard hashes to the empty string;
otherwise hash the sorted digests, each followed by its blob length as 8
bytes big-endian. -/
def prefixHash (sha256hex : Str → Str) (blobs : List (Str × Str)) : Str :=
  if blobs.isEmpty then []
  else digestPrefixBytes ++ sha256hex
    (((sortStr (blobs.map Prod.fst)).map
        fun d => d ++ be64 ((lookupA blobs d).getD []).length).flatten)

/-- Model of PrefixSize: total byte size of a shard's blobs. -/
def prefixSize (blobs : List (Str × Str)) : Int :=
  (blobs.map fun kv => (kv.2.length : Int)).sum

/-- Accumulation loop of BuildLayerPlan, translated statement by
statement (layers, current and size are the loop variables). -/
def planLoop (sizes : List (Str × Int)) :
    List Str → List (List Str) → List Str → Int → List (List Str)
  | [], layers, current, _ => if current.isEmpty then layers else layers ++ [current]
  | p :: rest, layers, current, size =>
    let psize := (lookupA sizes p).getD 0
    if current.isEmpty then planLoop sizes rest layers [p] psize
    else
      let newSize := size + psize
      if newSize ≤ layerSoftMax then planLoop sizes rest layers (current ++ [p]) newSize
      else if size < layerMinSize ∧ newSize ≤ 2 * layerSoftMax then
        planLoop sizes rest layers (current ++ [p]) newSize
      else planLoop sizes rest (layers ++ [current]) [p] psize

/-- Model of BuildLayerPlan: sort the shard names, accumulate greedily. -/
def buildLayerPlan (sizes : List (Str × Int)) : List (List Str) :=
  planLoop sizes (sortStr (sizes.map Prod.fst)) [] [] 0

/-- Greedy step of spec section 4.5 as claim C6 words it: the next shard
joins the current group when the new total is at most the soft maximum,
or when the current total is below the minimum and the new total is at
most twice the soft maximum; otherwise the current group is cut and a new
one starts. -/
def specGreedyStep (sizes : List (Str × Int))
    (st : List (List Str) × List Str × Int) (p : Str) :
    List (List Str) × List Str × Int :=
  let w := (lookupA sizes p).getD 0
  match st with
  | (groups, current, total) =>
    if current.isEmpty then (groups, [p], w)
    else if total + w ≤ layerSoftMax ∨ (total < layerMinSize ∧ total + w ≤ 2 * layerSoftMax) then
      (groups, current ++ [p], total + w)
    else (groups ++ [current], [p], w)

/-- Layer plan as claim C6 words it: walk the shards sorted by name
through the greedy step and emit the trailing partial group. -/
def specGreedyPlan (sizes : List (Str × Int)) : List (List Str) :=
  let st := (sortStr (sizes.map Prod.fst)).foldl (specGreedyStep sizes) ([], [], 0)
  if st.2.1.isEmpty then st.1 else st.1 ++ [st.2.1]

/-! ## The Push method of OCIRemote

The network transfer itself (manifest build, registry write, retries) is
input/output against the registry; the claims concern the PrefixInfo map
that Push computes and returns, which is a pure function of the objects
map and the local records.  The parameter compress abstracts the zstd
encoder; a layer's OCI digest is the digest tag followed by the hex
SHA-256 of the compressed packed bytes, per the Digest method of
blobLayer. -/

/-- Shard names present in the objects map (the key set built by
GroupByPrefix); dedup models the key set of the Go map. -/
def groupKeys (objects : List (Str × Str)) : List Str :=
  (objects.map fun o => extractPrefixStr o.1).dedup

/-- Blobs of the objects map whose digest falls in shard p (the group
that GroupByPrefix files under p). -/
def shardBlobs (objects : List (Str × Str)) (p : Str) : List (Str × Str) :=
  objects.filter fun o => extractPrefixStr o.1 == p

/-- Entry of the currentHashes map in the Push method. -/
def currentHashOf (sha256hex : Str → Str) (objects : List (Str × Str)) (p : Str) : Str :=
  prefixHash sha256hex (shardBlobs objects p)

/-- PrefixInfo map computed and returned by the Push method of OCIRemote:
shards keep a carried-forward local record only if they appear in the
currentHashes map built from the objects; changed shards are re-packed by
the layer plan and get fresh records of hash and layer digest. -/
def remotePush (sha256hex compress : Str → Str) (objects : List (Str × Str))
    (localPrefixes : List (Str × PrefixInfo)) : List (Str × PrefixInfo) :=
  let shards := groupKeys objects
  let changed := shards.filter fun p =>
    match lookupA localPrefixes p with
    | none => true
    | some li => !(li.hash == currentHashOf sha256hex objects p)
  let carried := localPrefixes.filter fun kv => shards.contains kv.1
  if changed.isEmpty then carried
  else
    let plan := buildLayerPlan (changed.map fun p => (p, prefixSize (shardBlobs objects p)))
    plan.foldl (fun acc group =>
      let layerData := packLayer (group.map (shardBlobs objects ·)).flatten
      let layerDigest := digestPrefixBytes ++ sha256hex (compress layerData)
      group.foldl (fun acc2 p =>
        storeA acc2 p { hash := currentHashOf sha256hex objects p, layer := layerDigest }) acc)
      carried

/-! ## The objects map assembled by CAS.pushToTag -/

/-- Model of normalizeDigest. -/
def normalizeDigest (hash : Str) : Str :=
  if digestPrefixBytes.isPrefixOf hash then hash else digestPrefixBytes ++ hash

/-- Digest of the serialized index, as computed at the top of pushToTag;
marshal abstracts CAS.serialize, that is json.Marshal of the entries. -/
def indexDigestOf (sha256hex : Str → Str) (marshal : List (Str × Info) → Str)
    (s : CASState) : Str :=
  digestPrefixBytes ++ sha256hex (marshal s.entries)

/-- Objects map assembled by CAS.pushToTag: the serialized index blob
plus every pending digest whose blob file is readable. -/
def pushObjects (sha256hex : Str → Str) (marshal : List (Str × Info) → Str)
    (s : CASState) : List (Str × Str) :=
  let indexData := marshal s.entries
  let r := blobPut sha256hex s.blobs indexData
  r.2.pending.foldl (fun objs d =>
    match blobGet r.2 d with
    | some data => storeA objs d data
    | none => objs) [(r.1, indexData)]

/-! ## CAS.Pull -/

/-- Triple a successful Pull of OCIRemote hands back to CAS.Pull. -/
structure RemotePullResult where
  indexHash : Str
  objects : List (Str × Str)
  prefixes : List (Str × PrefixInfo)
deriving DecidableEq

/-- Stage at which CAS.Pull returns an error. -/
inductive PullErr
  | remoteFetch
  | loadIndex
  | parseIndex
deriving DecidableEq

/-- Model of CAS.savePrefixHashes: store an internal record per returned
shard whose digest field is the hash, a pipe byte, then the layer. -/
def savePrefixEntries (entries : List (Str × Info))
    (prefixes : List (Str × PrefixInfo)) : List (Str × Info) :=
  prefixes.foldl (fun es kv =>
    storeA es (prefixHashKeyBytes ++ kv.1)
      { digest := kv.2.hash ++ [124] ++ kv.2.layer, size := 0, meta := none }) entries

/-- Blob-writing loop of CAS.Pull: every returned object is written
through putWithDigest under its normalized digest. -/
def storeObjects (b : BlobStore) (objects : List (Str × Str)) : BlobStore :=
  objects.foldl (fun b o => (putWithDigest b (normalizeDigest o.1) o.2).2) b

/-- Model of CAS.load: store every deserialized entry into the map — a
merge, existing keys not mentioned are left in place. -/
def loadEntries (entries : List (Str × Info)) (m : List (Str × Info)) : List (Str × Info) :=
  m.foldl (fun es kv => storeA es kv.1 kv.2) entries

/-- How CAS.Pull locates the index blob data: from the objects map under
the raw returned hash, or failing that from the local blob store under
the normalized digest (after the download loop has run). -/
def pullIndexData (r : RemotePullResult) (s : CASState) : Option Str :=
  match lookupA r.objects r.indexHash with
  | some d => some d
  | none => blobGet (storeObjects s.blobs r.objects) (normalizeDigest r.indexHash)

/-- Model of CAS.Pull, sequenced exactly as the source: remote fetch
(whose outcome is the res parameter, with none a fetch error), blob
download loop, savePrefixHashes, index-blob load, CAS.load with the JSON
decode abstracted as unmarshal, then Sync, which persists the index file
outside the modelled state and clears the dirty flag. -/
def casPull (unmarshal : Str → Option (List (Str × Info)))
    (res : Option RemotePullResult) (s : CASState) : CASState × Option PullErr :=
  match res with
  | none => (s, some .remoteFetch)
  | some r =>
    let s1 : CASState := { s with blobs := storeObjects s.blobs r.objects }
    let s2 : CASState := { s1 with entries := savePrefixEntries s1.entries r.prefixes,
                                   dirty := true }
    match pullIndexData r s with
    | none => (s2, some .loadIndex)
    | some indexData =>
      match unmarshal indexData with
      | none => (s2, some .parseIndex)
      | some m =>
        ({ s2 with entries := loadEntries s2.entries m, dirty := false }, none)

/-! ## Auto-pull decision of Open -/

/-- Bytes of the mode string always. -/
def autoPullAlways : Str := [97, 108, 119, 97, 121, 115]

/-- Bytes of the mode string missing. -/
def autoPullMissing : Str := [109, 105, 115, 115, 105, 110, 103]

/-- Whether Open invokes the automatic Pull, as the source decides it: a
remote is configured and the mode equals always or equals missing.  The
outcome of loadLocalIndex — whether a local index file exists — is passed
in but, in the source, never consulted. -/
def openShouldPull (remoteConfigured : Bool) (autoPull : Str)
    (localIndexExists : Bool) : Bool :=
  remoteConfigured && (autoPull == autoPullAlways || autoPull == autoPullMissing)

/-- Modelled from the spec (section 4.7, claim C9): pull when the mode is
always, or when the mode is missing and no local index exists. -/
def specShouldPull (remoteConfigured : Bool) (autoPull : Str)
    (localIndexExists : Bool) : Bool :=
  remoteConfigured &&
    (autoPull == autoPullAlways || (autoPull == autoPullMissing && !localIndexExists))

/-! ## Concrete instances used by witnesses and counterexamples -/

/-- Stand-in hex SHA-256 used to close universally quantified statements
at a concrete point; no conclusion below depends on its values. -/
def hashFn0 : Str → Str := fun _ => List.replicate 64 97

/-- Stand-in index serializer for closing statements at a point. -/
def marshalFn0 : List (Str × Info) → Str := fun _ => [48]

/-- Stand-in index deserializer that always fails. -/
def unmarshalNone : Str → Option (List (Str × Info)) := fun _ => none

/-- Bytes of an empty JSON object. -/
def emptyJsonObj : Str := [123, 125]

/-- Deserializer agreeing with encoding/json on the empty object, the
only input it is applied to. -/
def unmarshalEmptyObj : Str → Option (List (Str × Info)) :=
  fun s => if s = emptyJsonObj then some [] else none

/-- Fresh empty store state. -/
def st0 : CASState := ⟨⟨[], []⟩, [], false⟩

/-- A digest-shaped index hash whose blob is nowhere available. -/
def idxHash0 : Str := digestPrefixBytes ++ [97, 98, 99, 100]

/-- Remote pull result carrying one shard record but no objects, so the
index blob cannot be loaded. -/
def pullRes0 : RemotePullResult := ⟨idxHash0, [], [([97, 98], ⟨[104], [108]⟩)]⟩

/-- Key present locally before a pull. -/
def oldKey : Str := [111, 108, 100]

/-- Info of the locally present key. -/
def oldInfo : Info := ⟨digestPrefixBytes ++ [97, 98], 1, none⟩

/-- Store state holding one user entry. -/
def st1 : CASState := ⟨⟨[], []⟩, [(oldKey, oldInfo)], false⟩

/-- Remote pull result whose index blob is the empty JSON object: a
successful pull of an empty remote index. -/
def pullRes1 : RemotePullResult := ⟨idxHash0, [(idxHash0, emptyJsonObj)], []⟩

/-- Shard name aa. -/
def shardAA : Str := [97, 97]

/-- Local record of shard aa from the previous push. -/
def locPI : PrefixInfo := ⟨[104], [108]⟩

/-- Objects map of a second push: only an index blob, whose digest falls
in shard bb; shard aa contributes no blobs. -/
def objsIdxOnly : List (Str × Str) := [(digestPrefixBytes ++ [98, 98], [1])]

/-- Local prefix records before the second push. -/
def localPI0 : List (Str × PrefixInfo) := [(shardAA, locPI)]

/-- Canonical 71-byte digest: the tag plus 64 hex characters. -/
def digestA : Str := digestPrefixBytes ++ List.replicate 64 97

/-- One mebibyte. -/
def mib : Int := 1024 * 1024

/-- An index entry used to close quantified statements at a point. -/
def entA : Str × Info := ([97], ⟨[100], 1, none⟩)

/-- A second index entry, carrying metadata. -/
def entB : Str × Info := ([98], ⟨[101], 2, some [9]⟩)

/-- Four shards of eight mebibytes each, in distinct shard names. -/
def fourShards : List (Str × Int) :=
  [([97, 97], 8 * mib), ([98, 98], 8 * mib), ([99, 99], 8 * mib), ([100, 100], 8 * mib)]

/-! ## Helper lemmas -/

theorem mem_keysA_of_mem {α : Type} {l : List (Str × α)} {kv : Str × α} (h : kv ∈ l) :
    kv.1 ∈ keysA l :=
  List.mem_map_of_mem Prod.fst h

theorem lookupA_eq_none {α : Type} (l : List (Str × α)) (k : Str) :
    lookupA l k = none ↔ k ∉ keysA l := by
  induction l with
  | nil => simp [lookupA, keysA]
  | cons kv rest ih =>
    by_cases h : kv.1 = k
    · simp [lookupA, keysA, h]
    · simp only [lookupA, if_neg h, keysA, List.map_cons, List.mem_cons]
      rw [ih]
      simp only [keysA]
      constructor
      · intro hn hc
        rcases hc with hc | hc
        · exact h hc.symm
        · exact hn hc
      · exact fun hn hc => hn (Or.inr hc)

theorem lookupA_eq_some_mem {α : Type} {l : List (Str × α)} {k : Str} {v : α}
    (hnd : (keysA l).Nodup) : lookupA l k = some v ↔ (k, v) ∈ l := by
  induction l with
  | nil => simp [lookupA]
  | cons kv rest ih =>
    obtain ⟨a, b⟩ := kv
    simp only [keysA, List.map_cons, List.nodup_cons] at hnd
    by_cases h : a = k
    · subst h
      have hnr : (a, v) ∉ rest := fun hm => hnd.1 (mem_keysA_of_mem hm)
      simp [lookupA, hnr, Prod.ext_iff, eq_comm]
    · have hne : ¬((k, v) = (a, b)) := fun hh => h (congrArg Prod.fst hh).symm
      simp only [lookupA, if_neg h, List.mem_cons, hne, false_or]
      exact ih hnd.2

theorem keysA_perm {α : Type} {l₁ l₂ : List (Str × α)} (hp : l₁.Perm l₂) :
    (keysA l₁).Perm (keysA l₂) := hp.map Prod.fst

theorem lookupA_perm {α : Type} {l₁ l₂ : List (Str × α)} (hnd : (keysA l₁).Nodup)
    (hp : l₁.Perm l₂) (k : Str) : lookupA l₁ k = lookupA l₂ k := by
  have hnd₂ : (keysA l₂).Nodup := (keysA_perm hp).nodup_iff.1 hnd
  cases hv : lookupA l₂ k with
  | some v => exact (lookupA_eq_some_mem hnd).2 (hp.symm.subset ((lookupA_eq_some_mem hnd₂).1 hv))
  | none =>
    exact (lookupA_eq_none _ _).2 fun hm => ((lookupA_eq_none _ _).1 hv)
      ((keysA_perm hp).subset hm)

theorem lookupA_storeA_self {α : Type} (l : List (Str × α)) (k : Str) (v : α) :
    lookupA (storeA l k v) k = some v := by
  induction l with
  | nil => simp [storeA, lookupA]
  | cons kv rest ih => by_cases h : kv.1 = k <;> simp [storeA, lookupA, h, ih]

theorem lookupA_storeA_ne {α : Type} (l : List (Str × α)) {k q : Str} (v : α) (h : q ≠ k) :
    lookupA (storeA l k v) q = lookupA l q := by
  induction l with
  | nil => simp [storeA, lookupA, Ne.symm h]
  | cons kv rest ih =>
    by_cases hk : kv.1 = k
    · have hq : kv.1 ≠ q := by rw [hk]; exact Ne.symm h
      simp [storeA, lookupA, hk, hq, Ne.symm h]
    · by_cases hq : kv.1 = q <;> simp [storeA, lookupA, hk, hq, ih, h]

theorem storeA_of_lookup_none {α : Type} {l : List (Str × α)} {k : Str} (v : α)
    (h : lookupA l k = none) : storeA l k v = l ++ [(k, v)] := by
  induction l with
  | nil => simp [storeA]
  | cons kv rest ih =>
    by_cases hk : kv.1 = k
    · simp [lookupA, hk] at h
    · simp only [lookupA, if_neg hk] at h
      simp [storeA, hk, ih h]

theorem isPrefixOf_append_drop {p s : Str} (h : p.isPrefixOf s = true) :
    p ++ s.drop p.length = s := by
  induction p generalizing s with
  | nil => simp
  | cons a p ih =>
    cases s with
    | nil => simp [List.isPrefixOf] at h
    | cons b s =>
      simp only [List.isPrefixOf, Bool.and_eq_true, beq_iff_eq] at h
      simp [h.1, ih h.2]

theorem countKey_eq_zero {α : Type} {l : List (Str × α)} {k : Str}
    (h : lookupA l k = none) : countKey l k = 0 := by
  induction l with
  | nil => simp [countKey]
  | cons kv rest ih =>
    by_cases hk : kv.1 = k
    · simp [lookupA, hk] at h
    · simp only [lookupA, if_neg hk] at h
      simp [countKey, List.countP_cons, hk, ih h]
      simp [countKey] at ih
      exact ih h

theorem countKey_eq_one {α : Type} {l : List (Str × α)} {k : Str}
    (hnd : (keysA l).Nodup) (h : (lookupA l k).isSome) : countKey l k = 1 := by
  induction l with
  | nil => simp [lookupA] at h
  | cons kv rest ih =>
    simp only [keysA, List.map_cons, List.nodup_cons] at hnd
    by_cases hk : kv.1 = k
    · have hz : lookupA rest k = none := by
        rw [lookupA_eq_none]
        rw [← hk]
        exact hnd.1
      have := countKey_eq_zero hz
      simp [countKey, List.countP_cons, hk] at this ⊢
      exact this
    · simp only [lookupA, if_neg hk] at h
      have := ih hnd.2 h
      simp [countKey, List.countP_cons, hk] at this ⊢
      exact this

theorem sortStr_perm {l₁ l₂ : List Str} (h : l₁.Perm l₂) : sortStr l₁ = sortStr l₂ := by
  apply List.eq_of_perm_of_sorted (r := (· ≤ ·))
  · exact (List.perm_insertionSort _ _).trans (h.trans (List.perm_insertionSort _ _).symm)
  · exact List.sorted_insertionSort _ _
  · exact List.sorted_insertionSort _ _

theorem lookupA_loadEntries (base m : List (Str × Info)) (k : Str)
    (hnd : (keysA m).Nodup) :
    lookupA (loadEntries base m) k =
      match lookupA m k with
      | some v => some v
      | none => lookupA base k := by
  induction m generalizing base with
  | nil => simp [loadEntries, lookupA]
  | cons kv rest ih =>
    simp only [keysA, List.map_cons, List.nodup_cons] at hnd
    have step : loadEntries base (kv :: rest) = loadEntries (storeA base kv.1 kv.2) rest := by
      simp [loadEntries]
    rw [step, ih _ hnd.2]
    by_cases hk : kv.1 = k
    · have hz : lookupA rest k = none := by
        rw [lookupA_eq_none, ← hk]
        exact hnd.1
      rw [hz, hk]
      simp [lookupA, hk, lookupA_storeA_self]
    · rw [lookupA_storeA_ne _ _ (fun hh => hk hh.symm)]
      simp [lookupA, hk]

theorem putWithDigest_pending (b : BlobStore) (d data : Str) :
    (putWithDigest b d data).2.pending = b.pending := by
  by_cases h : statExists b (blobPath d) <;> simp [putWithDigest, h]

theorem storeObjects_pending (b : BlobStore) (objs : List (Str × Str)) :
    (storeObjects b objs).pending = b.pending := by
  induction objs generalizing b with
  | nil => simp [storeObjects]
  | cons o rest ih =>
    have step : storeObjects b (o :: rest) =
        storeObjects (putWithDigest b (normalizeDigest o.1) o.2).2 rest := by
      simp [storeObjects]
    rw [step, ih, putWithDigest_pending]

theorem mem_keysA_storeA {α : Type} {l : List (Str × α)} {k q : Str} {v : α}
    (h : q ∈ keysA (storeA l k v)) : q ∈ keysA l ∨ q = k := by
  induction l with
  | nil =>
    simp only [storeA, keysA, List.map_cons, List.map_nil, List.mem_singleton] at h
    exact Or.inr h
  | cons kv rest ih =>
    by_cases hk : kv.1 = k
    · rw [show storeA (kv :: rest) k v = (k, v) :: rest from by simp [storeA, hk]] at h
      simp only [keysA, List.map_cons, List.mem_cons] at h
      rcases h with h | h
      · exact Or.inr h
      · refine Or.inl ?_
        simp only [keysA, List.map_cons, List.mem_cons]
        exact Or.inr h
    · rw [show storeA (kv :: rest) k v = kv :: storeA rest k v from by simp [storeA, hk]] at h
      simp only [keysA, List.map_cons, List.mem_cons] at h
      rcases h with h | h
      · refine Or.inl ?_
        simp only [keysA, List.map_cons, List.mem_cons]
        exact Or.inl h
      · rcases ih (by simpa [keysA] using h) with h2 | h2
        · refine Or.inl ?_
          simp only [keysA, List.map_cons, List.mem_cons]
          right
          simpa [keysA] using h2
        · exact Or.inr h2

theorem blobPut_pending (hfn : Str → Str) (b : BlobStore) (data : Str) :
    (blobPut hfn b data).2.pending =
      if statExists b (blobPath (digestPrefixBytes ++ hfn data)) then b.pending
      else pendingStore b.pending (digestPrefixBytes ++ hfn data) := by
  by_cases h : statExists b (blobPath (digestPrefixBytes ++ hfn data)) <;>
    simp [blobPut, putWithDigest, h]

theorem planLoop_flatten (sizes : List (Str × Int)) :
    ∀ (ps : List Str) (layers : List (List Str)) (current : List Str) (size : Int),
      (planLoop sizes ps layers current size).flatten = layers.flatten ++ current ++ ps := by
  intro ps
  induction ps with
  | nil =>
    intro layers current size
    by_cases h : current.isEmpty
    · rw [List.isEmpty_iff] at h
      simp [planLoop, h]
    · simp [planLoop, h]
  | cons p rest ih =>
    intro layers current size
    simp only [planLoop]
    by_cases h1 : current.isEmpty
    · rw [List.isEmpty_iff] at h1
      subst h1
      simp [ih]
    · by_cases h2 : size + (lookupA sizes p).getD 0 ≤ layerSoftMax
      · simp [h1, h2, ih]
      · by_cases h3 : size < layerMinSize ∧ size + (lookupA sizes p).getD 0 ≤ 2 * layerSoftMax
        · simp [h1, h2, h3, ih]
        · simp [h1, h2, h3, ih]

theorem planLoop_eq_spec (sizes : List (Str × Int)) :
    ∀ (ps : List Str) (layers : List (List Str)) (current : List Str) (size : Int),
      planLoop sizes ps layers current size =
        (let st := ps.foldl (specGreedyStep sizes) (layers, current, size)
         if st.2.1.isEmpty then st.1 else st.1 ++ [st.2.1]) := by
  intro ps
  induction ps with
  | nil => intro layers current size; simp [planLoop]
  | cons p rest ih =>
    intro layers current size
    simp only [planLoop, List.foldl_cons]
    by_cases h1 : current.isEmpty
    · rw [show specGreedyStep sizes (layers, current, size) p =
          (layers, [p], (lookupA sizes p).getD 0) from by simp [specGreedyStep, h1]]
      simp only [if_pos h1]
      exact ih layers [p] ((lookupA sizes p).getD 0)
    · simp only [if_neg h1]
      by_cases h2 : size + (lookupA sizes p).getD 0 ≤ layerSoftMax
      · rw [show specGreedyStep sizes (layers, current, size) p =
            (layers, current ++ [p], size + (lookupA sizes p).getD 0) from by
          simp [specGreedyStep, h1, h2]]
        simp only [if_pos h2]
        exact ih layers (current ++ [p]) (size + (lookupA sizes p).getD 0)
      · by_cases h3 : size < layerMinSize ∧ size + (lookupA sizes p).getD 0 ≤ 2 * layerSoftMax
        · rw [show specGreedyStep sizes (layers, current, size) p =
              (layers, current ++ [p], size + (lookupA sizes p).getD 0) from by
            simp [specGreedyStep, h1, h2, h3]]
          simp only [if_neg h2, if_pos h3]
          exact ih layers (current ++ [p]) (size + (lookupA sizes p).getD 0)
        · rw [show specGreedyStep sizes (layers, current, size) p =
              (layers ++ [current], [p], (lookupA sizes p).getD 0) from by
            simp [specGreedyStep, h1, h2, h3]]
          simp only [if_neg h2, if_neg h3]
          exact ih (layers ++ [current]) [p] ((lookupA sizes p).getD 0)

theorem planLoop_congr {s1 s2 : List (Str × Int)}
    (h : ∀ p, lookupA s1 p = lookupA s2 p) :
    ∀ (ps : List Str) (layers : List (List Str)) (current : List Str) (size : Int),
      planLoop s1 ps layers current size = planLoop s2 ps layers current size := by
  intro ps
  induction ps with
  | nil => intro layers current size; simp [planLoop]
  | cons p rest ih =>
    intro layers current size
    simp only [planLoop, h p]
    by_cases h1 : current.isEmpty
    · simp only [if_pos h1, ih]
    · simp only [if_neg h1]
      by_cases h2 : size + (lookupA s2 p).getD 0 ≤ layerSoftMax
      · simp only [if_pos h2, ih]
      · by_cases h3 : size < layerMinSize ∧ size + (lookupA s2 p).getD 0 ≤ 2 * layerSoftMax
        · simp only [if_neg h2, if_pos h3, ih]
        · simp only [if_neg h2, if_neg h3, ih]

theorem hashItems_eq (pre : Str) (es : List (Str × Info)) :
    (es.map hashProj).filterMap (hashItemP pre) =
      (es.filter fun kv =>
        !(prefixHashKeyBytes.isPrefixOf kv.1) && pre.isPrefixOf kv.1).map
        (fun kv => kv.1.drop pre.length ++ [0] ++ kv.2.digest ++ [0] ++ intDecimal kv.2.size) := by
  induction es with
  | nil => simp
  | cons kv rest ih =>
    simp only [List.map_cons, List.filterMap_cons, List.filter_cons]
    by_cases hA : prefixHashKeyBytes.isPrefixOf kv.1
    · simp [hashItemP, hashProj, hA, ih]
    · by_cases hB : pre.isPrefixOf kv.1
      · simp [hashItemP, hashProj, cutPrefixStr, hA, hB, ih]
      · simp [hashItemP, hashProj, cutPrefixStr, hA, hB, ih]

theorem keysA_pushObjects_fold (r2 : BlobStore) (pend : List Str)
    (init : List (Str × Str)) (d : Str)
    (h : d ∈ keysA (pend.foldl (fun objs dd =>
      match blobGet r2 dd with
      | some data => storeA objs dd data
      | none => objs) init)) : d ∈ keysA init ∨ d ∈ pend := by
  induction pend generalizing init with
  | nil => exact Or.inl (by simpa [List.foldl_nil] using h)
  | cons p rest ih =>
    simp only [List.foldl_cons] at h
    rcases ih _ h with h2 | h2
    · cases hg : blobGet r2 p with
      | some data =>
        rw [hg] at h2
        rcases mem_keysA_storeA h2 with h3 | h3
        · exact Or.inl h3
        · exact Or.inr (by simp [h3])
      | none =>
        rw [hg] at h2
        exact Or.inl h2
    · exact Or.inr (List.mem_cons_of_mem _ h2)

theorem mem_pendingStore {pend : List Str} {d q : Str}
    (h : q ∈ pendingStore pend d) : q ∈ pend ∨ q = d := by
  by_cases hm : d ∈ pend
  · simp [pendingStore, hm] at h
    exact Or.inl h
  · simp only [pendingStore, if_neg hm, List.mem_append, List.mem_singleton] at h
    exact h

theorem keysA_pushObjects (hfn : Str → Str) (marshal : List (Str × Info) → Str)
    (s : CASState) (d : Str) (h : d ∈ keysA (pushObjects hfn marshal s)) :
    d = indexDigestOf hfn marshal s ∨ d ∈ s.blobs.pending := by
  have hidx : (blobPut hfn s.blobs (marshal s.entries)).1 = indexDigestOf hfn marshal s := by
    simp only [blobPut, indexDigestOf]
    split <;> rfl
  rcases keysA_pushObjects_fold (blobPut hfn s.blobs (marshal s.entries)).2
      (blobPut hfn s.blobs (marshal s.entries)).2.pending
      [((blobPut hfn s.blobs (marshal s.entries)).1, marshal s.entries)] d
      (by simpa [pushObjects] using h) with h2 | h2
  · left
    simp only [keysA, List.map_cons, List.map_nil, List.mem_singleton] at h2
    rw [h2, hidx]
  · rw [blobPut_pending] at h2
    by_cases hst : statExists s.blobs (blobPath (digestPrefixBytes ++ hfn (marshal s.entries)))
    · rw [if_pos hst] at h2
      exact Or.inr h2
    · rw [if_neg hst] at h2
      rcases mem_pendingStore h2 with h3 | h3
      · exact Or.inr h3
      · left
        rw [h3]
        simp [indexDigestOf]

/-! ## Claim theorems -/

set_option maxRecDepth 8000 in
/-- C1: the push of a store whose local records contain a shard that is
unchanged since the last push — hence contributing no pending blobs, so
no entries of the objects map — does NOT carry that shard's record
through: the guard in the Push method drops every local record whose
shard is absent from the objects map, and pushToTag's objects map holds
only the index blob plus pending blobs.  Here shard aa is locally
recorded, contributes no blobs to the objects map of the second push, and
is dropped from the returned map, against the claim. -/
theorem push_drops_blobless_unchanged_shard :
    lookupA localPI0 shardAA = some locPI ∧
    lookupA (remotePush hashFn0 (fun s => s) objsIdxOnly localPI0) shardAA = none := by
  decide

set_option maxRecDepth 8000 in
/-- C5: the layer codec does not round-trip a map whose greatest-digest
record carries zero-byte data.  PackLayer of the empty map is empty, a
single 0-byte entry packs to exactly 79 bytes, but UnpackLayer then
errors: the final zero-length read happens at end of file, where
bytes.Reader reports an error even for an empty destination buffer. -/
theorem unpack_pack_zero_byte_record_errors :
    packLayer [] = [] ∧
    (packLayer [(digestA, [])]).length = 79 ∧
    unpackLayer (packLayer [(digestA, [])]) = none := by
  refine ⟨by decide, by decide, ?_⟩
  rw [unpackLayer, unpackLoop.eq_def]
  decide

/-- C9: Open pulls whenever the mode is missing, even when a local index
file exists — the source's condition never consults the local index —
while the spec says a pull happens only when no local index exists. -/
theorem open_autopull_missing_divergence :
    openShouldPull true autoPullMissing true = true ∧
    specShouldPull true autoPullMissing true = false := by
  decide

/-- C2 counterexample: a Pull that fails at the index-load stage returns
an error, yet the in-memory index has already been mutated — the internal
shard record of the returned prefix map was stored by savePrefixHashes
before the failure. -/
theorem pull_error_mutates_prefix_records :
    (casPull unmarshalNone (some pullRes0) st0).2 = some PullErr.loadIndex ∧
    (casPull unmarshalNone (some pullRes0) st0).1.entries ≠ st0.entries := by
  decide

/-- C2 (amended): a Pull that fails at the remote fetch itself leaves the
whole store state unchanged; a Pull that fails later — index-blob load or
parse — leaves every entry unchanged except that the internal records of
the returned prefix map have been stored, and never touches the pending
set. -/
theorem casPull_error_frame (u : Str → Option (List (Str × Info)))
    (r : RemotePullResult) (s : CASState) :
    casPull u none s = (s, some PullErr.remoteFetch) ∧
    ((casPull u (some r) s).2 ≠ none →
      (casPull u (some r) s).1.entries = savePrefixEntries s.entries r.prefixes ∧
      (casPull u (some r) s).1.blobs.pending = s.blobs.pending) := by
  constructor
  · rfl
  · intro he
    unfold casPull at he ⊢
    cases hp : pullIndexData r s with
    | none => simp [hp, storeObjects_pending]
    | some d =>
      cases hu : u d with
      | none => simp [hp, hu, storeObjects_pending]
      | some m => simp [hp, hu] at he

/-- C2 witness: the frame theorem applied at the concrete failing pull. -/
theorem casPull_error_frame_witness :
    (casPull unmarshalNone (some pullRes0) st0).1.entries =
      savePrefixEntries st0.entries pullRes0.prefixes ∧
    (casPull unmarshalNone (some pullRes0) st0).1.blobs.pending = st0.blobs.pending :=
  (casPull_error_frame unmarshalNone pullRes0 st0).2 (by decide)

/-- C3 counterexample: a successful Pull whose pulled index blob is the
empty JSON object leaves a previously present local key (absent from the
pulled index) still present afterwards — CAS.load merges, it does not
replace. -/
theorem pull_success_keeps_absent_local_key :
    (casPull unmarshalEmptyObj (some pullRes1) st1).2 = none ∧
    lookupA (casPull unmarshalEmptyObj (some pullRes1) st1).1.entries oldKey =
      some oldInfo := by
  decide

/-- C3 (amended): after a successful Pull the pulled index entries are
merged into the in-memory index: every key of the pulled index maps to
its pulled value, and every other key — including keys present only
locally — keeps its previous value (after the returned prefix records
were stored). -/
theorem casPull_success_merges (u : Str → Option (List (Str × Info)))
    (r : RemotePullResult) (s : CASState) (m : List (Str × Info)) (d k : Str)
    (h1 : pullIndexData r s = some d) (h2 : u d = some m) (h3 : (keysA m).Nodup) :
    (casPull u (some r) s).2 = none ∧
    lookupA (casPull u (some r) s).1.entries k =
      (match lookupA m k with
       | some v => some v
       | none => lookupA (savePrefixEntries s.entries r.prefixes) k) := by
  unfold casPull
  simp only [h1, h2]
  exact ⟨trivial, lookupA_loadEntries _ m k h3⟩

/-- C3 witness: the merge theorem applied at the concrete successful
pull of an empty remote index over a store holding one key. -/
theorem casPull_success_merges_witness :
    (casPull unmarshalEmptyObj (some pullRes1) st1).2 = none ∧
    lookupA (casPull unmarshalEmptyObj (some pullRes1) st1).1.entries oldKey =
      (match lookupA ([] : List (Str × Info)) oldKey with
       | some v => some v
       | none => lookupA (savePrefixEntries st1.entries pullRes1.prefixes) oldKey) :=
  casPull_success_merges unmarshalEmptyObj pullRes1 st1 [] emptyJsonObj oldKey
    (by decide) (by decide) (by decide)

/-- C4: the merkle hash of the source equals the reference function of
spec section 4.3, for every hash function, entry set and search string;
Root is the hash of the empty string; and the hash depends only on the
projected (key, digest, size) triples — never on the metadata — and not
on the order of the entries. -/
theorem casHash_spec :
    (∀ hf es pre, casHash hf es pre = specHashRef hf es pre) ∧
    (∀ hf es, casRoot hf es = casHash hf es []) ∧
    (∀ hf es es2 pre, es.map hashProj = es2.map hashProj →
      casHash hf es pre = casHash hf es2 pre) ∧
    (∀ hf es es2 pre, es.Perm es2 → casHash hf es pre = casHash hf es2 pre) := by
  refine ⟨?_, fun hf es => rfl, ?_, ?_⟩
  · intro hf es pre
    simp only [casHash, specHashRef, hashItems_eq]
  · intro hf es es2 pre hm
    simp only [casHash, hm]
  · intro hf es es2 pre hp
    have hip : ((es.map hashProj).filterMap (hashItemP pre)).Perm
        ((es2.map hashProj).filterMap (hashItemP pre)) :=
      (hp.map hashProj).filterMap _
    have hnil : (es.map hashProj).filterMap (hashItemP pre) = [] ↔
        (es2.map hashProj).filterMap (hashItemP pre) = [] := by
      constructor
      · intro hz
        exact List.perm_nil.1 (hz ▸ hip).symm
      · intro hz
        exact List.perm_nil.1 (hz ▸ hip)
    have he : ((es.map hashProj).filterMap (hashItemP pre)).isEmpty =
        ((es2.map hashProj).filterMap (hashItemP pre)).isEmpty := by
      cases h1 : (es.map hashProj).filterMap (hashItemP pre) with
      | nil => rw [hnil.1 h1]
      | cons a t =>
        cases h2 : (es2.map hashProj).filterMap (hashItemP pre) with
        | nil => exact absurd (hnil.2 h2) (by simp [h1])
        | cons b u => rfl
    simp only [casHash]
    rw [he, sortStr_perm hip]

/-- C4 witness: insertion order does not matter at two concrete entries. -/
theorem casHash_spec_witness :
    casHash hashFn0 [entA, entB] [] = casHash hashFn0 [entB, entA] [] :=
  casHash_spec.2.2.2 hashFn0 [entA, entB] [entB, entA] [] (by decide)

/-- C6: the groups of BuildLayerPlan concatenate to exactly the shards
sorted by name; the accumulation follows the greedy rule as the claim
words it (join while the new total is at most the soft maximum, or while
the current total is below the minimum and the new total at most twice
the soft maximum; otherwise cut; trailing group emitted); the plan
depends only on the map, not on the order its pairs are listed in; and
four shards of eight mebibytes each produce four singleton layers. -/
theorem buildLayerPlan_spec :
    (∀ sizes, (buildLayerPlan sizes).flatten = sortStr (sizes.map Prod.fst)) ∧
    (∀ sizes, buildLayerPlan sizes = specGreedyPlan sizes) ∧
    (∀ sizes sizes2, (keysA sizes).Nodup → sizes.Perm sizes2 →
      buildLayerPlan sizes = buildLayerPlan sizes2) ∧
    buildLayerPlan fourShards =
      [[[97, 97]], [[98, 98]], [[99, 99]], [[100, 100]]] := by
  refine ⟨?_, ?_, ?_, by decide⟩
  · intro sizes
    simp [buildLayerPlan, planLoop_flatten]
  · intro sizes
    simp [buildLayerPlan, specGreedyPlan, planLoop_eq_spec]
  · intro sizes sizes2 hnd hp
    unfold buildLayerPlan
    rw [sortStr_perm (hp.map Prod.fst)]
    exact planLoop_congr (fun p => lookupA_perm hnd hp p) _ _ _ _

/-- C6 witness: the plan is insensitive to the listing order of the size
map at a concrete two-shard input. -/
theorem buildLayerPlan_spec_witness :
    buildLayerPlan [([97, 97], 8 * mib), ([98, 98], 1)] =
      buildLayerPlan [([98, 98], 1), ([97, 97], 8 * mib)] :=
  buildLayerPlan_spec.2.2.1 [([97, 97], 8 * mib), ([98, 98], 1)]
    [([98, 98], 1), ([97, 97], 8 * mib)] (by decide) (by decide)

/-- C7: blobStore.Put returns the tagged hex hash of the data; putting
the same data a second time returns the same digest and leaves the store
exactly unchanged, because the stat guard sees the existing blob file
before any write; and exactly one file sits at that digest's path. -/
theorem blobPut_digest_law (hf : Str → Str) (b : BlobStore) (data : Str)
    (hnd : (keysA b.files).Nodup) :
    (blobPut hf b data).1 = digestPrefixBytes ++ hf data ∧
    blobPut hf (blobPut hf b data).2 data = ((blobPut hf b data).1, (blobPut hf b data).2) ∧
    statExists (blobPut hf b data).2 (blobPath (digestPrefixBytes ++ hf data)) = true ∧
    countKey (blobPut hf b data).2.files (blobPath (digestPrefixBytes ++ hf data)) = 1 := by
  by_cases hst : statExists b (blobPath (digestPrefixBytes ++ hf data))
  · have hb : blobPut hf b data = (digestPrefixBytes ++ hf data, b) := by
      simp [blobPut, putWithDigest, hst]
    rw [hb]
    refine ⟨rfl, by simp [blobPut, putWithDigest, hst], hst, ?_⟩
    exact countKey_eq_one hnd (by simpa [statExists] using hst)
  · have hnone : lookupA b.files (blobPath (digestPrefixBytes ++ hf data)) = none := by
      simpa [statExists, Option.not_isSome_iff_eq_none] using hst
    have hb : blobPut hf b data =
        (digestPrefixBytes ++ hf data,
         ⟨storeA b.files (blobPath (digestPrefixBytes ++ hf data)) data,
          pendingStore b.pending (digestPrefixBytes ++ hf data)⟩) := by
      simp [blobPut, putWithDigest, hst]
    have hst2 : statExists
        (⟨storeA b.files (blobPath (digestPrefixBytes ++ hf data)) data,
          pendingStore b.pending (digestPrefixBytes ++ hf data)⟩ : BlobStore)
        (blobPath (digestPrefixBytes ++ hf data)) = true := by
      simp [statExists, lookupA_storeA_self]
    rw [hb]
    refine ⟨rfl, by simp [blobPut, putWithDigest, hst2], hst2, ?_⟩
    rw [show (⟨storeA b.files (blobPath (digestPrefixBytes ++ hf data)) data,
          pendingStore b.pending (digestPrefixBytes ++ hf data)⟩ : BlobStore).files =
        storeA b.files (blobPath (digestPrefixBytes ++ hf data)) data from rfl]
    rw [storeA_of_lookup_none data hnone]
    rw [countKey, List.countP_append]
    have hz := countKey_eq_zero hnone
    rw [countKey] at hz
    simp [hz]

/-- C7 witness: the digest law applied to the empty store at a concrete
byte string. -/
theorem blobPut_digest_law_witness :
    (blobPut hashFn0 ⟨[], []⟩ [1, 2]).1 = digestPrefixBytes ++ hashFn0 [1, 2] ∧
    blobPut hashFn0 (blobPut hashFn0 ⟨[], []⟩ [1, 2]).2 [1, 2] =
      ((blobPut hashFn0 ⟨[], []⟩ [1, 2]).1, (blobPut hashFn0 ⟨[], []⟩ [1, 2]).2) ∧
    statExists (blobPut hashFn0 ⟨[], []⟩ [1, 2]).2
      (blobPath (digestPrefixBytes ++ hashFn0 [1, 2])) = true ∧
    countKey (blobPut hashFn0 ⟨[], []⟩ [1, 2]).2.files
      (blobPath (digestPrefixBytes ++ hashFn0 [1, 2])) = 1 :=
  blobPut_digest_law hashFn0 ⟨[], []⟩ [1, 2] (by decide)

/-- C8: CAS.Put on a key beginning with an underscore returns the
reserved-key error and leaves the store state exactly as it was — no blob
written, no entry, no dirty mark — and a key that was absent stays absent
from every List iteration. -/
theorem casPut_reserved_key (hf : Str → Str) (s : CASState) (key data : Str)
    (opts : List (Info → Info)) (pre rel : Str) (info : Info)
    (h1 : ([95] : Str).isPrefixOf key = true)
    (h2 : lookupA s.entries key = none) :
    (casPut hf s key data opts).1 = some CafsErr.reservedKey ∧
    (casPut hf s key data opts).2 = s ∧
    ((rel, info) ∈ casList (casPut hf s key data opts).2 pre → pre ++ rel ≠ key) := by
  have hc : casPut hf s key data opts = (some CafsErr.reservedKey, s) := by
    simp [casPut, h1]
  refine ⟨by rw [hc], by rw [hc], ?_⟩
  rw [hc]
  intro hm heq
  simp only [casList] at hm
  rcases List.mem_filterMap.1 hm with ⟨kv, hkv, hfm⟩
  by_cases hA : prefixHashKeyBytes.isPrefixOf kv.1
  · simp [hA] at hfm
  · simp only [hA, Bool.false_eq_true, if_false, cutPrefixStr] at hfm
    by_cases hB : pre.isPrefixOf kv.1
    · simp only [hB, if_true, Option.some.injEq, Prod.mk.injEq] at hfm
      have hkey : kv.1 = key := by
        rw [← heq, ← hfm.1]
        exact (isPrefixOf_append_drop hB).symm
      exact (lookupA_eq_none s.entries key).1 h2 (hkey ▸ mem_keysA_of_mem hkv)
    · simp [hB] at hfm

/-- C8 witness: the reserved-key law at a concrete store and key. -/
theorem casPut_reserved_key_witness :
    (casPut hashFn0 st0 [95, 120] [1] []).1 = some CafsErr.reservedKey ∧
    (casPut hashFn0 st0 [95, 120] [1] []).2 = st0 ∧
    (([95, 120], oldInfo) ∈ casList (casPut hashFn0 st0 [95, 120] [1] []).2 [] →
      [] ++ [95, 120] ≠ [95, 120]) :=
  casPut_reserved_key hashFn0 st0 [95, 120] [1] [] [] [95, 120] oldInfo
    (by decide) (by decide)

/-- C10: putWithDigest — the write path Pull uses for downloaded blobs —
never touches the pending set; only Put inserts into it, and only when it
actually creates the blob file; a whole Pull leaves the pending set
unchanged; every key of the objects map pushToTag assembles is the index
digest or a pending digest; hence a Push right after a successful Pull
does not re-upload the blobs that the Pull just wrote. -/
theorem pending_frame (hf : Str → Str) (marshal : List (Str × Info) → Str)
    (u : Str → Option (List (Str × Info))) (res : Option RemotePullResult)
    (b : BlobStore) (dd data : Str) (s : CASState) (d : Str) :
    (putWithDigest b dd data).2.pending = b.pending ∧
    (blobPut hf b data).2.pending =
      (if statExists b (blobPath (digestPrefixBytes ++ hf data)) then b.pending
       else pendingStore b.pending (digestPrefixBytes ++ hf data)) ∧
    (casPull u res s).1.blobs.pending = s.blobs.pending ∧
    (d ∈ keysA (pushObjects hf marshal s) →
      d = indexDigestOf hf marshal s ∨ d ∈ s.blobs.pending) ∧
    ((casPull u res s).2 = none → d ∉ s.blobs.pending →
      d ≠ indexDigestOf hf marshal (casPull u res s).1 →
      d ∉ keysA (pushObjects hf marshal (casPull u res s).1)) := by
  have hpull : (casPull u res s).1.blobs.pending = s.blobs.pending := by
    cases res with
    | none => rfl
    | some r =>
      unfold casPull
      cases hp : pullIndexData r s with
      | none => simp [hp, storeObjects_pending]
      | some dI =>
        cases hu : u dI with
        | none => simp [hp, hu, storeObjects_pending]
        | some m => simp [hp, hu, storeObjects_pending]
  refine ⟨putWithDigest_pending b dd data, blobPut_pending hf b data, hpull,
    keysA_pushObjects hf marshal s d, ?_⟩
  intro _ hnp hni hmem
  rcases keysA_pushObjects hf marshal (casPull u res s).1 d hmem with h | h
  · exact hni h
  · rw [hpull] at h
    exact hnp h

/-- C10 witness: a digest not pending before the concrete successful pull
is absent from the objects map of the next push. -/
theorem pending_frame_witness :
    (digestPrefixBytes ++ [97, 98]) ∉ keysA (pushObjects hashFn0 marshalFn0
      (casPull unmarshalEmptyObj (some pullRes1) st1).1) :=
  (pending_frame hashFn0 marshalFn0 unmarshalEmptyObj (some pullRes1) ⟨[], []⟩ [] []
      st1 (digestPrefixBytes ++ [97, 98])).2.2.2.2 (by decide) (by decide) (by decide)

end CafsProof